import Mathlib

/-!
Verification of the JSON pretty-print tree component (`jsonPrettyPrint` LWC).

The definitions below are a shallow embedding of the JavaScript source:

* `JsonValue` models the parsed JSON value union (`JSON.parse` output).
  Numbers are modelled as integers; no claim depends on float rendering.
* `natChars` / `natStr` model the decimal rendering a template literal
  performs on a number (used for `${level}`, `${index}` and the counts).
* A JavaScript `Set` of node keys is modelled as a `Finset String`.
* `buildJsonTree`, `addAllNodesToExpanded`, `processPayload`,
  `handleToggleExpansion` and friends are direct translations of the
  methods of the same names; `JSON.parse` is a platform function and is
  passed in as an explicit `parse : String → Except String JsonValue`
  argument, `JSON.stringify` is modelled by `jsonStringify`, and
  `String.prototype.trim` by `jsTrim`.
-/

/-- The JSON value union produced by the upstream parse step. -/
inductive JsonValue where
  | null
  | bool (b : Bool)
  | num (n : Int)
  | str (s : String)
  | arr (items : List JsonValue)
  | obj (fields : List (String × JsonValue))

/-- One decimal digit character, `48 + d` is the ASCII code of digit `d`. -/
def digChar (d : Nat) : Char := Char.ofNat (48 + d)

/-- Fuel-driven decimal rendering of a natural number (least significant
digit produced last), structurally recursive so that it evaluates in the
kernel. -/
def natCharsAux (fuel n : Nat) : List Char :=
  match fuel with
  | 0 => []
  | fuel + 1 =>
    if n < 10 then [digChar n]
    else natCharsAux fuel (n / 10) ++ [digChar (n % 10)]

/-- Decimal digit list of a natural number; `n + 1` fuel always suffices. -/
def natChars (n : Nat) : List Char := natCharsAux (n + 1) n

/-- Decimal string of a natural number: the embedding of what a JavaScript
template literal does to a non-negative number. -/
def natStr (n : Nat) : String := String.mk (natChars n)

/-- Decimal string of an integer (JavaScript `Number.prototype.toString`
restricted to integers). -/
def intStr (i : Int) : String :=
  if i < 0 then String.mk ('-' :: natChars i.natAbs) else natStr i.toNat

/-- Source `generateKey(path, level)`: returns `` `${path}_${level}` ``. -/
def generateKey (path : String) (level : Nat) : String :=
  path ++ "_" ++ natStr level

/-- Source path extension step (line 211 / 351):
`parentKey ? `${parentKey}.${key}` : key`. -/
def pathAppend (parentKey key : String) : String :=
  if parentKey = "" then key else parentKey ++ "." ++ key

/-- Source `hasChildren(value)`: non-null object with at least one own
entry (`value.length > 0` for arrays, `Object.keys(value).length > 0` for
objects). -/
def hasChildrenB : JsonValue → Bool
  | .arr items => !items.isEmpty
  | .obj fields => !fields.isEmpty
  | _ => false

/-- Source `getValueType(value)`. -/
def getValueType : JsonValue → String
  | .null => "null"
  | .arr _ => "array"
  | .bool _ => "boolean"
  | .num _ => "number"
  | .str _ => "string"
  | .obj _ => "object"

/-- `Array.isArray(value)`. -/
def isArrayB : JsonValue → Bool
  | .arr _ => true
  | _ => false

/-- `Object.keys(value).length` of JavaScript: property count for objects,
index count for arrays, character count for strings, `0` otherwise. -/
def objectKeysLength : JsonValue → Nat
  | .obj fields => fields.length
  | .arr items => items.length
  | .str s => s.length
  | _ => 0

/-- Model of the platform `JSON.stringify` string escaping (quote and
backslash; control characters do not occur in the values the claims
evaluate). -/
def jsEscapeChar (c : Char) : List Char :=
  if c = '"' then ['\\', '"'] else if c = '\\' then ['\\', '\\'] else [c]

/-- Escape a string for inclusion in `JSON.stringify` output. -/
def jsEscape (s : String) : String :=
  String.mk (s.data.foldr (fun c acc => jsEscapeChar c ++ acc) [])

mutual

/-- Model of the platform `JSON.stringify(value)` (compact form, no
indentation), used by `formatValue`'s fallback branch. -/
def jsonStringify : JsonValue → String
  | .null => "null"
  | .bool b => if b then "true" else "false"
  | .num n => intStr n
  | .str s => "\"" ++ jsEscape s ++ "\""
  | .arr items => "[" ++ stringifyItems items ++ "]"
  | .obj fields => "\x7b" ++ stringifyFields fields ++ "\x7d"

/-- Comma-separated `JSON.stringify` rendering of array items. -/
def stringifyItems : List JsonValue → String
  | [] => ""
  | [v] => jsonStringify v
  | v :: rest => jsonStringify v ++ "," ++ stringifyItems rest

/-- Comma-separated `JSON.stringify` rendering of object fields. -/
def stringifyFields : List (String × JsonValue) → String
  | [] => ""
  | [e] => "\"" ++ jsEscape e.1 ++ "\":" ++ jsonStringify e.2
  | e :: rest => "\"" ++ jsEscape e.1 ++ "\":" ++ jsonStringify e.2 ++ "," ++ stringifyFields rest

end

/-- Source `formatValue(value)`: quoted strings (template literal, no
escaping), `toString` for booleans and numbers, literal `null`, and
`JSON.stringify` as the defensive fallback (reached exactly for objects
and arrays). -/
def formatValue : JsonValue → String
  | .str s => "\"" ++ s ++ "\""
  | .bool b => if b then "true" else "false"
  | .num n => intStr n
  | .null => "null"
  | .arr items => jsonStringify (.arr items)
  | .obj fields => jsonStringify (.obj fields)

/-- One visible row of the materialized tree; the fields mirror the object
literal built in `buildJsonTree`.  `isArray` is `none` on the root
null/scalar rows, which do not set that property in the source. -/
structure DisplayNode where
  key : String
  displayKey : String
  value : String
  type : String
  level : Nat
  hasChildren : Bool
  isExpanded : Bool
  isArray : Option Bool
  children : List DisplayNode

mutual

/-- Source `buildJsonTree(obj, parentKey, level)` with the expansion set
(`this.expandedNodes`) passed explicitly. -/
def buildJsonTree (exp : Finset String) (obj : JsonValue) (parentKey : String) (level : Nat) :
    List DisplayNode :=
  match obj with
  | .null =>
    [{ key := generateKey parentKey level, displayKey := parentKey, value := "null",
       type := "null", level := level, hasChildren := false, isExpanded := false,
       isArray := none, children := [] }]
  | .bool b =>
    [{ key := generateKey parentKey level, displayKey := parentKey,
       value := formatValue (.bool b), type := "boolean", level := level,
       hasChildren := false, isExpanded := false, isArray := none, children := [] }]
  | .num n =>
    [{ key := generateKey parentKey level, displayKey := parentKey,
       value := formatValue (.num n), type := "number", level := level,
       hasChildren := false, isExpanded := false, isArray := none, children := [] }]
  | .str s =>
    [{ key := generateKey parentKey level, displayKey := parentKey,
       value := formatValue (.str s), type := "string", level := level,
       hasChildren := false, isExpanded := false, isArray := none, children := [] }]
  | .arr items => buildArrEntries exp items.length items 0 parentKey level
  | .obj fields => buildObjEntries exp fields parentKey level
termination_by (sizeOf obj, 0)

/-- The `entries.forEach` loop of `buildJsonTree` for an array container;
`parentLen` is `obj.length` of the enclosing array (captured by the
summary template in the source), `i` the current index. -/
def buildArrEntries (exp : Finset String) (parentLen : Nat) (items : List JsonValue) (i : Nat)
    (parentKey : String) (level : Nat) : List DisplayNode :=
  match items with
  | [] => []
  | v :: rest =>
    entryNode exp true parentLen (natStr i) v parentKey level ::
      buildArrEntries exp parentLen rest (i + 1) parentKey level
termination_by (sizeOf items, 1)

/-- The `entries.forEach` loop of `buildJsonTree` for an object container.
The `parentLen` argument of `entryNode` is irrelevant here (the source
only reads `obj.length` when the parent is an array). -/
def buildObjEntries (exp : Finset String) (fields : List (String × JsonValue))
    (parentKey : String) (level : Nat) : List DisplayNode :=
  match fields with
  | [] => []
  | (k, v) :: rest =>
    entryNode exp false 0 k v parentKey level ::
      buildObjEntries exp rest parentKey level
termination_by (sizeOf fields, 1)

/-- The node object literal built for one `(key, value)` entry of a
container (source lines 210-232).  Note that the `value` summary uses the
PARENT's kind (`isArray`) and, in the array case, the PARENT's length
(`obj.length`), exactly as the source does. -/
def entryNode (exp : Finset String) (parentIsArray : Bool) (parentLen : Nat) (key : String)
    (value : JsonValue) (parentKey : String) (level : Nat) : DisplayNode :=
  let fullPath := pathAppend parentKey key
  let nodeKey := generateKey fullPath level
  let hc := hasChildrenB value
  let ie := decide (nodeKey ∈ exp)
  { key := nodeKey
    displayKey := key
    value :=
      if hc then
        (if parentIsArray then "[" ++ natStr parentLen ++ " items]"
         else "\x7b" ++ natStr (objectKeysLength value) ++ " properties\x7d")
      else formatValue value
    type := getValueType value
    level := level
    hasChildren := hc
    isExpanded := ie
    isArray := some (isArrayB value)
    children := if hc && ie then buildJsonTree exp value fullPath (level + 1) else [] }
termination_by (sizeOf value, 2)

end

mutual

/-- Source `addAllNodesToExpanded(obj, parentKey, level)`, with the
mutated `this.expandedNodes` set threaded through as `s`. -/
def addAllNodesToExpanded (obj : JsonValue) (parentKey : String) (level : Nat)
    (s : Finset String) : Finset String :=
  match obj with
  | .arr items => addAllArr items 0 parentKey level s
  | .obj fields => addAllObj fields parentKey level s
  | _ => s
termination_by (sizeOf obj, 1)

/-- The `entries.forEach` loop of `addAllNodesToExpanded` over an array. -/
def addAllArr (items : List JsonValue) (i : Nat) (parentKey : String) (level : Nat)
    (s : Finset String) : Finset String :=
  match items with
  | [] => s
  | v :: rest =>
    let fullPath := pathAppend parentKey (natStr i)
    let s' :=
      if hasChildrenB v then
        addAllNodesToExpanded v fullPath (level + 1) (insert (generateKey fullPath level) s)
      else s
    addAllArr rest (i + 1) parentKey level s'
termination_by (sizeOf items, 0)

/-- The `entries.forEach` loop of `addAllNodesToExpanded` over an object. -/
def addAllObj (fields : List (String × JsonValue)) (parentKey : String) (level : Nat)
    (s : Finset String) : Finset String :=
  match fields with
  | [] => s
  | (k, v) :: rest =>
    let fullPath := pathAppend parentKey k
    let s' :=
      if hasChildrenB v then
        addAllNodesToExpanded v fullPath (level + 1) (insert (generateKey fullPath level) s)
      else s
    addAllObj rest parentKey level s'
termination_by (sizeOf fields, 0)

end

/-- The component state the claims are about: the payload text extracted
from the record (`this.fieldData`), the derived tree, the error surface,
the expansion set and the cached all-expanded flag. -/
structure CState where
  fieldData : Option String
  jsonTree : List DisplayNode
  error : Option String
  expandedNodes : Finset String
  allExpanded : Bool

/-- ASCII whitespace recognised by the model of `String.prototype.trim`. -/
def jsWhitespaceB (c : Char) : Bool :=
  c == ' ' || c == '\t' || c == '\n' || c == '\r' || c == '\x0b' || c == '\x0c'

/-- Model of the platform `String.prototype.trim` (ASCII whitespace; the
claims only exercise ASCII payloads). -/
def jsTrim (s : String) : String :=
  String.mk (((s.data.dropWhile jsWhitespaceB).reverse.dropWhile jsWhitespaceB).reverse)

/-- Source `processPayload(payload)`.  `parse` stands for the platform
`JSON.parse`; a JavaScript exception is modelled as `Except.error` with
the exception message.  The function is total: a parse failure is caught
and converted into the error field, it never propagates. -/
def processPayload (parse : String → Except String JsonValue) (payload : Option String)
    (st : CState) : CState :=
  match payload with
  | none => { st with jsonTree := [] }
  | some p =>
    if jsTrim p = "" ∨ p = "\x7b\x7d" then { st with jsonTree := [] }
    else
      match parse p with
      | .ok v => { st with jsonTree := buildJsonTree st.expandedNodes v "" 0 }
      | .error msg => { st with error := some ("Invalid JSON: " ++ msg), jsonTree := [] }

/-- Source `processCurrentSelection()`. -/
def processCurrentSelection (parse : String → Except String JsonValue) (st : CState) : CState :=
  processPayload parse st.fieldData st

/-- Source `updateAllExpandedState()`: both branches assign `false`. -/
def updateAllExpandedState (exp : Finset String) : Bool :=
  if exp.card = 0 then false else false

/-- Source `handleToggleExpansion(event)` for the node key carried by the
event: toggle membership, recompute the (hard-coded) all-expanded flag
and rebuild the tree from the current field data. -/
def handleToggleExpansion (parse : String → Except String JsonValue) (nodeKey : String)
    (st : CState) : CState :=
  let exp :=
    if nodeKey ∈ st.expandedNodes then st.expandedNodes.erase nodeKey
    else insert nodeKey st.expandedNodes
  processCurrentSelection parse
    { st with expandedNodes := exp, allExpanded := updateAllExpandedState exp }

/-- Source `expandAllNodes()`: parse the current field data and add every
expandable node key to the expansion set; on parse failure do nothing. -/
def expandAllNodes (parse : String → Except String JsonValue) (st : CState) : CState :=
  match st.fieldData with
  | none => st
  | some d =>
    if d = "" then st
    else
      match parse d with
      | .ok v => { st with expandedNodes := addAllNodesToExpanded v "" 0 st.expandedNodes }
      | .error _ => st

/-- Source `handleExpandCollapseAll()`. -/
def handleExpandCollapseAll (parse : String → Except String JsonValue) (st : CState) : CState :=
  if st.allExpanded then
    processCurrentSelection parse { st with expandedNodes := ∅, allExpanded := false }
  else
    processCurrentSelection parse { expandAllNodes parse st with allExpanded := true }

/-- The data branch of the `wiredRecord` handler restricted to the state
the claims read: on record data arrival the error is cleared, the field
value is stored, and the payload is reprocessed. -/
def receiveRecordData (parse : String → Except String JsonValue) (fieldValue : Option String)
    (st : CState) : CState :=
  processCurrentSelection parse { st with error := none, fieldData := fieldValue }

/-- The entry list a container value is enumerated with: array entries in
ascending index order keyed by the decimal index (starting at `i`),
object entries in document insertion order. -/
def arrEntries (i : Nat) : List JsonValue → List (String × JsonValue)
  | [] => []
  | v :: rest => (natStr i, v) :: arrEntries (i + 1) rest

/-- The `(key, value)` entries of a container value, `[]` for leaves. -/
def entriesOf : JsonValue → List (String × JsonValue)
  | .arr items => arrEntries 0 items
  | .obj fields => fields
  | _ => []

/-- The sub-value of a document at a position, a position being the list
of entry keys (array indices in decimal) leading to it from the root. -/
def valueAt : List String → JsonValue → Option JsonValue
  | [], v => some v
  | k :: rest, v =>
    match (entriesOf v).find? (fun e => e.1 == k) with
    | some e => valueAt rest e.2
    | none => none

/-- The dotted full path of a (non-root) position, as accumulated by the
`fullPath` computation of `buildJsonTree` along the chain of keys. -/
def fullPathOfPos (pos : List String) : String := pos.foldl pathAppend ""

/-- The NodeId the path-plus-depth scheme assigns to a non-root position:
its entry sits at nesting level `pos.length - 1`. -/
def posNodeId (pos : List String) : String :=
  generateKey (fullPathOfPos pos) (pos.length - 1)

/-- `allNodesList p ns`: every row of the forest `ns`, including all
(recursively materialized) children, satisfies `p`. -/
def allNodesList (p : DisplayNode → Bool) : List DisplayNode → Bool
  | [] => true
  | n :: rest => p n && allNodesList p n.children && allNodesList p rest
termination_by ns => sizeOf ns
decreasing_by
  all_goals cases n
  all_goals simp_all
  all_goals omega

/-! ### String-level facts about the key scheme -/

theorem string_data_inj {a b : String} (h : a.data = b.data) : a = b := by
  cases a; cases b; exact congrArg String.mk (by simpa using h)

theorem natCharsAux_stable :
    ∀ f1 f2 n : Nat, n < f1 → n < f2 → natCharsAux f1 n = natCharsAux f2 n := by
  intro f1
  induction f1 with
  | zero => intro f2 n h _; omega
  | succ f ih =>
    intro f2 n h1 h2
    cases f2 with
    | zero => omega
    | succ g =>
      simp only [natCharsAux]
      by_cases hn : n < 10
      · simp [hn]
      · have hd : n / 10 < n := Nat.div_lt_self (by omega) (by omega)
        simp only [if_neg hn]
        rw [ih g (n / 10) (by omega) (by omega)]

theorem natChars_expand (n : Nat) :
    natChars n = if n < 10 then [digChar n] else natChars (n / 10) ++ [digChar (n % 10)] := by
  have h1 : natChars n = if n < 10 then [digChar n] else natCharsAux n (n / 10) ++ [digChar (n % 10)] := rfl
  rw [h1]
  by_cases hn : n < 10
  · simp [hn]
  · have hd : n / 10 < n := Nat.div_lt_self (by omega) (by omega)
    rw [if_neg hn, if_neg hn, natCharsAux_stable n (n / 10 + 1) (n / 10) (by omega) (by omega)]
    rfl

theorem digChar_range : ∀ d, d < 10 → 48 ≤ (digChar d).toNat ∧ (digChar d).toNat ≤ 57 := by decide

theorem digChar_inj : ∀ d1, d1 < 10 → ∀ d2, d2 < 10 → digChar d1 = digChar d2 → d1 = d2 := by
  decide

theorem natChars_range (n : Nat) : ∀ c ∈ natChars n, 48 ≤ c.toNat ∧ c.toNat ≤ 57 := by
  induction n using Nat.strong_induction_on with
  | _ n ih =>
    rw [natChars_expand]
    by_cases hn : n < 10
    · simp only [if_pos hn, List.mem_singleton]
      rintro c rfl
      exact digChar_range n hn
    · simp only [if_neg hn, List.mem_append, List.mem_singleton]
      rintro c (hc | rfl)
      · exact ih (n / 10) (Nat.div_lt_self (by omega) (by omega)) c hc
      · exact digChar_range _ (Nat.mod_lt _ (by omega))

theorem natChars_ne_nil (n : Nat) : natChars n ≠ [] := by
  rw [natChars_expand]
  by_cases hn : n < 10 <;> simp [hn]

theorem natChars_inj : ∀ m n : Nat, natChars m = natChars n → m = n := by
  intro m
  induction m using Nat.strong_induction_on with
  | _ m ih =>
    intro n h
    rw [natChars_expand m, natChars_expand n] at h
    by_cases hm : m < 10 <;> by_cases hn : n < 10
    · simp only [if_pos hm, if_pos hn, List.cons.injEq] at h
      exact digChar_inj m hm n hn h.1
    · exfalso
      simp only [if_pos hm, if_neg hn] at h
      have hlen : (1 : Nat) = (natChars (n / 10)).length + 1 := by
        simpa using congrArg List.length h
      have : natChars (n / 10) = [] := List.length_eq_zero.mp (by omega)
      exact natChars_ne_nil _ this
    · exfalso
      simp only [if_neg hm, if_pos hn] at h
      have hlen : (natChars (m / 10)).length + 1 = 1 := by
        simpa using congrArg List.length h
      have : natChars (m / 10) = [] := List.length_eq_zero.mp (by omega)
      exact natChars_ne_nil _ this
    · simp only [if_neg hm, if_neg hn] at h
      obtain ⟨h1, h2⟩ := List.append_inj' h (by simp)
      have hq : m / 10 = n / 10 :=
        ih (m / 10) (Nat.div_lt_self (by omega) (by omega)) (n / 10) h1
      have hr : m % 10 = n % 10 :=
        digChar_inj _ (Nat.mod_lt _ (by omega)) _ (Nat.mod_lt _ (by omega)) (by simpa using h2)
      omega

theorem append_sep_inj (c : Char) :
    ∀ l1 l2 m1 m2 : List Char, c ∉ m1 → c ∉ m2 →
      l1 ++ c :: m1 = l2 ++ c :: m2 → l1 = l2 ∧ m1 = m2 := by
  intro l1
  induction l1 with
  | nil =>
    intro l2 m1 m2 h1 h2 heq
    cases l2 with
    | nil => simpa using heq
    | cons b l2' =>
      exfalso
      simp only [List.nil_append, List.cons_append, List.cons.injEq] at heq
      exact h1 (heq.2 ▸ List.mem_append_right _ (List.mem_cons_self _ _))
  | cons a l1' ih =>
    intro l2 m1 m2 h1 h2 heq
    cases l2 with
    | nil =>
      exfalso
      simp only [List.cons_append, List.nil_append, List.cons.injEq] at heq
      exact h2 (heq.2 ▸ List.mem_append_right _ (List.mem_cons_self _ _))
    | cons b l2' =>
      simp only [List.cons_append, List.cons.injEq] at heq
      obtain ⟨rfl, htl⟩ := heq
      obtain ⟨he, hm⟩ := ih l2' m1 m2 h1 h2 htl
      exact ⟨by rw [he], hm⟩

theorem generateKey_data (p : String) (l : Nat) :
    (generateKey p l).data = p.data ++ '_' :: natChars l := by
  show (p ++ "_" ++ natStr l).data = _
  rw [String.data_append, String.data_append, List.append_assoc]
  rfl

theorem underscore_not_mem_natChars (l : Nat) : '_' ∉ natChars l := by
  intro h
  have hr := natChars_range l _ h
  have : ('_' : Char).toNat = 95 := by decide
  omega

theorem dot_not_mem_natChars (l : Nat) : '.' ∉ natChars l := by
  intro h
  have hr := natChars_range l _ h
  have : ('.' : Char).toNat = 46 := by decide
  omega

theorem generateKey_inj {p1 p2 : String} {l1 l2 : Nat}
    (h : generateKey p1 l1 = generateKey p2 l2) : p1 = p2 ∧ l1 = l2 := by
  have hd : p1.data ++ '_' :: natChars l1 = p2.data ++ '_' :: natChars l2 := by
    rw [← generateKey_data, ← generateKey_data, h]
  obtain ⟨h1, h2⟩ :=
    append_sep_inj '_' _ _ _ _ (underscore_not_mem_natChars l1) (underscore_not_mem_natChars l2) hd
  exact ⟨string_data_inj h1, natChars_inj _ _ h2⟩

theorem foldl_pathAppend_concat (ks : List String) (a : String) :
    ((ks ++ [a]).foldl pathAppend "") = pathAppend (ks.foldl pathAppend "") a := by
  simp [List.foldl_append]

theorem pathAppend_empty (a : String) : pathAppend "" a = a := by
  simp [pathAppend]

theorem pathAppend_data_of_ne {p : String} (hp : p ≠ "") (a : String) :
    (pathAppend p a).data = p.data ++ '.' :: a.data := by
  simp only [pathAppend, if_neg hp]
  rw [String.data_append, String.data_append, List.append_assoc]
  rfl

theorem foldl_pathAppend_inj :
    ∀ ks1 ks2 : List String,
      (∀ k ∈ ks1, '.' ∉ k.data) → (∀ k ∈ ks2, '.' ∉ k.data) → ks1.length = ks2.length →
      ks1.foldl pathAppend "" = ks2.foldl pathAppend "" → ks1 = ks2 := by
  intro ks1
  induction ks1 using List.reverseRecOn with
  | nil =>
    intro ks2 _ _ hl _
    exact (List.length_eq_zero.mp hl.symm).symm
  | append_singleton as a ih =>
    intro ks2 hd1 hd2 hl hf
    rcases List.eq_nil_or_concat ks2 with rfl | ⟨bs, b, rfl⟩
    · simp at hl
    · rw [List.concat_eq_append] at hl hd2 ⊢
      rw [foldl_pathAppend_concat, List.concat_eq_append, foldl_pathAppend_concat] at hf
      have hda : '.' ∉ a.data := hd1 a (by simp)
      have hdb : '.' ∉ b.data := hd2 b (by simp)
      by_cases h1 : as.foldl pathAppend "" = "" <;> by_cases h2 : bs.foldl pathAppend "" = ""
      · rw [h1, h2, pathAppend_empty, pathAppend_empty] at hf
        have hab : as = bs :=
          ih bs (fun k hk => hd1 k (by simp [hk])) (fun k hk => hd2 k (by simp [hk]))
            (by simpa using hl) (by rw [h1, h2])
        rw [hab, hf]
      · exfalso
        rw [h1, pathAppend_empty] at hf
        have : '.' ∈ a.data := by
          rw [hf, pathAppend_data_of_ne h2 b]
          exact List.mem_append_right _ (List.mem_cons_self _ _)
        exact hda this
      · exfalso
        rw [h2, pathAppend_empty] at hf
        have : '.' ∈ b.data := by
          rw [← hf, pathAppend_data_of_ne h1 a]
          exact List.mem_append_right _ (List.mem_cons_self _ _)
        exact hdb this
      · have hdd : (as.foldl pathAppend "").data ++ '.' :: a.data =
            (bs.foldl pathAppend "").data ++ '.' :: b.data := by
          rw [← pathAppend_data_of_ne h1 a, ← pathAppend_data_of_ne h2 b, hf]
        obtain ⟨hpp, hab⟩ := append_sep_inj '.' _ _ _ _ hda hdb hdd
        have hx : as = bs :=
          ih bs (fun k hk => hd1 k (by simp [hk])) (fun k hk => hd2 k (by simp [hk]))
            (by simpa using hl) (string_data_inj hpp)
        rw [hx, string_data_inj hab]

/-! ### Claim C1 -/

/-- Claim C1, amended: the path-plus-depth NodeId scheme
(`generateKey(fullPath, level)`) is injective over the positions of a
document *provided no key along the positions contains a dot* (array
index components never do); the same position always yields the same id
because the scheme is a pure function of the position.  Without the
dot-freeness proviso the claim is false, see the counterexample. -/
theorem nodeId_injective_on_dotFree_positions (v : JsonValue) (pos1 pos2 : List String)
    (h1 : (valueAt pos1 v).isSome = true) (h2 : (valueAt pos2 v).isSome = true)
    (hd1 : ∀ k ∈ pos1, '.' ∉ k.data) (hd2 : ∀ k ∈ pos2, '.' ∉ k.data)
    (hn1 : pos1 ≠ []) (hn2 : pos2 ≠ [])
    (heq : posNodeId pos1 = posNodeId pos2) : pos1 = pos2 := by
  simp only [posNodeId, fullPathOfPos] at heq
  obtain ⟨hp, hl⟩ := generateKey_inj heq
  have e1 : pos1.length ≠ 0 := fun h => hn1 (List.length_eq_zero.mp h)
  have e2 : pos2.length ≠ 0 := fun h => hn2 (List.length_eq_zero.mp h)
  exact foldl_pathAppend_inj pos1 pos2 hd1 hd2 (by omega) hp

/-- Claim C1, counterexample: in the document
`{"a.b": {"c": 1}, "a": {"b.c": 2}}` the two distinct positions
`["a.b", "c"]` and `["a", "b.c"]` both exist and are both assigned the
NodeId `"a.b.c_1"`; materializing with both top-level nodes expanded
exhibits the collision in the emitted rows. -/
theorem nodeId_collision_counterexample :
    (valueAt ["a.b", "c"]
        (.obj [("a.b", .obj [("c", .num 1)]), ("a", .obj [("b.c", .num 2)])])).isSome = true ∧
    (valueAt ["a", "b.c"]
        (.obj [("a.b", .obj [("c", .num 1)]), ("a", .obj [("b.c", .num 2)])])).isSome = true ∧
    (["a.b", "c"] : List String) ≠ ["a", "b.c"] ∧
    posNodeId ["a.b", "c"] = posNodeId ["a", "b.c"] ∧
    (buildJsonTree {"a.b_0", "a_0"}
        (.obj [("a.b", .obj [("c", .num 1)]), ("a", .obj [("b.c", .num 2)])]) "" 0).map
      (fun n => n.children.map (fun c => c.key)) = [["a.b.c_1"], ["a.b.c_1"]] := by
  refine ⟨by decide, by decide, by decide, by decide, ?_⟩
  simp [buildJsonTree, buildObjEntries, buildArrEntries, entryNode, hasChildrenB,
    formatValue, objectKeysLength, pathAppend, generateKey]
  decide

/-- Claim C1, witness of applicability of the amended theorem at a
concrete document and position. -/
theorem nodeId_injective_witness :
    (valueAt ["a"] (.obj [("a", .obj [("b", .num 1)])])).isSome = true ∧
    (["a"] : List String) = ["a"] :=
  ⟨by decide,
    nodeId_injective_on_dotFree_positions (.obj [("a", .obj [("b", .num 1)])]) ["a"] ["a"]
      (by decide) (by decide) (by decide) (by decide) (by decide) (by decide) (by decide)⟩

/-! ### Claims C2 and C3 -/

/-- Claim C2 fails on the code (code bug): the summary of an expandable
child is computed from the PARENT container's kind and, for array
parents, the parent's length (the shadowed `isArray` / `obj` of the
enclosing `buildJsonTree` call), not from the child value.  At
`{"b": [1,2,3]}` the array child renders `"{3 properties}"` instead of
the claimed `"[3 items]"`; at `[{"x":1,"y":2}]` the object child renders
`"[1 items]"` (parent's length!) instead of the claimed
`"{2 properties}"`. -/
theorem childSummary_uses_parent_kind :
    (buildJsonTree ∅ (.obj [("b", .arr [.num 1, .num 2, .num 3])]) "" 0).map
        (fun n => n.value) = ["\x7b3 properties\x7d"] ∧
    (buildJsonTree ∅ (.arr [.obj [("x", .num 1), ("y", .num 2)]]) "" 0).map
        (fun n => n.value) = ["[1 items]"] ∧
    ("\x7b3 properties\x7d" : String) ≠ "[3 items]" ∧
    ("[1 items]" : String) ≠ "\x7b2 properties\x7d" := by
  refine ⟨?_, ?_, by decide, by decide⟩ <;>
    · simp [buildJsonTree, buildObjEntries, buildArrEntries, entryNode, hasChildrenB,
        formatValue, objectKeysLength, pathAppend, generateKey]
      try decide

/-- Claim C3, counterexample: an empty object / empty array entry is
summarized by the `JSON.stringify` fallback of `formatValue` — `"{}"` and
`"[]"` — not by the count placeholders `"{0 properties}"` / `"[0 items]"`
the claim states (here even with the entry NodeIds present in the
expansion set). -/
theorem emptyContainer_summary_counterexample :
    (buildJsonTree {"a_0", "b_0"} (.obj [("a", .obj []), ("b", .arr [])]) "" 0).map
        (fun n => n.value) = ["\x7b\x7d", "[]"] ∧
    ("\x7b\x7d" : String) ≠ "\x7b0 properties\x7d" ∧
    ("[]" : String) ≠ "[0 items]" := by
  refine ⟨?_, by decide, by decide⟩
  simp [buildJsonTree, buildObjEntries, buildArrEntries, entryNode, hasChildrenB,
    formatValue, jsonStringify, stringifyItems, stringifyFields, objectKeysLength,
    pathAppend, generateKey]
  try decide

/-- Claim C3, amended: an empty object / empty array entry value always
yields a node with `hasChildren = false` and empty `children`, regardless
of the expansion set, and its summary is the `JSON.stringify` rendering
(`"{}"` / `"[]"`), not a count placeholder. -/
theorem emptyContainer_not_expandable (exp : Finset String) (pia : Bool) (plen : Nat)
    (k pk : String) (l : Nat) :
    (entryNode exp pia plen k (.obj []) pk l).hasChildren = false ∧
    (entryNode exp pia plen k (.obj []) pk l).value = "\x7b\x7d" ∧
    (entryNode exp pia plen k (.obj []) pk l).children = [] ∧
    (entryNode exp pia plen k (.arr []) pk l).hasChildren = false ∧
    (entryNode exp pia plen k (.arr []) pk l).value = "[]" ∧
    (entryNode exp pia plen k (.arr []) pk l).children = [] := by
  simp [entryNode, hasChildrenB, formatValue, jsonStringify, stringifyItems, stringifyFields]

/-! ### Controller-level facts (claims C7, C8, C9, C10) -/

theorem processPayload_expandedNodes (parse : String → Except String JsonValue)
    (payload : Option String) (st : CState) :
    (processPayload parse payload st).expandedNodes = st.expandedNodes := by
  cases payload with
  | none => rfl
  | some p =>
    simp only [processPayload]
    split
    · rfl
    · split <;> rfl

theorem processPayload_allExpanded (parse : String → Except String JsonValue)
    (payload : Option String) (st : CState) :
    (processPayload parse payload st).allExpanded = st.allExpanded := by
  cases payload with
  | none => rfl
  | some p =>
    simp only [processPayload]
    split
    · rfl
    · split <;> rfl

/-- Claim C8: toggling the same NodeId twice restores the expansion set
(the rebuild step `processCurrentSelection` never touches it). -/
theorem toggle_toggle_expansionSet (parse : String → Except String JsonValue)
    (nodeKey : String) (st : CState) :
    (handleToggleExpansion parse nodeKey (handleToggleExpansion parse nodeKey st)).expandedNodes =
      st.expandedNodes := by
  simp only [handleToggleExpansion, processCurrentSelection, processPayload_expandedNodes]
  by_cases h : nodeKey ∈ st.expandedNodes
  · rw [if_pos h]
    rw [if_neg (by simp [Finset.mem_erase])]
    exact Finset.insert_erase h
  · rw [if_neg h]
    rw [if_pos (Finset.mem_insert_self _ _)]
    exact Finset.erase_insert h

/-- Claim C9: after a toggle the all-expanded flag is `false`
unconditionally — `updateAllExpandedState` hard-codes `false` in both of
its branches and the rebuild step does not change the flag. -/
theorem toggle_allExpanded_false (parse : String → Except String JsonValue)
    (nodeKey : String) (st : CState) :
    (handleToggleExpansion parse nodeKey st).allExpanded = false := by
  simp only [handleToggleExpansion, processCurrentSelection, processPayload_allExpanded]
  simp [updateAllExpandedState]

/-- Claim C10: a `none` payload, an all-whitespace payload, or the exact
string `"{}"` takes the early-return branch of `processPayload`: the tree
is cleared, the parser is never consulted (the result does not depend on
`parse` at all), and the error field is left exactly as it was. -/
theorem processPayload_noData (parse1 parse2 : String → Except String JsonValue)
    (payload : Option String) (st : CState)
    (h : payload = none ∨
      ∃ p, payload = some p ∧ ((∀ c ∈ p.data, jsWhitespaceB c = true) ∨ p = "\x7b\x7d")) :
    processPayload parse1 payload st = processPayload parse2 payload st ∧
    (processPayload parse1 payload st).jsonTree = [] ∧
    (processPayload parse1 payload st).error = st.error := by
  rcases h with rfl | ⟨p, rfl, hp⟩
  · exact ⟨rfl, rfl, rfl⟩
  · have hguard : jsTrim p = "" ∨ p = "\x7b\x7d" := by
      rcases hp with hw | rfl
      · left
        have hdrop : p.data.dropWhile jsWhitespaceB = [] :=
          List.dropWhile_eq_nil_iff.mpr fun x hx => hw x hx
        simp [jsTrim, hdrop]
        try rfl
      · right; rfl
    refine ⟨?_, ?_, ?_⟩ <;> simp only [processPayload, if_pos hguard]

/-- Claim C10, witness: the whitespace-only payload `" "` with a stale
error in place. -/
theorem processPayload_noData_witness :
    (processPayload (fun _ => .error "e") (some " ")
        ⟨none, [], some "boom", ∅, false⟩).jsonTree = [] ∧
    (processPayload (fun _ => .error "e") (some " ")
        ⟨none, [], some "boom", ∅, false⟩).error = some "boom" := by
  have h := processPayload_noData (fun _ => .error "e") (fun _ => .ok .null) (some " ")
    ⟨none, [], some "boom", ∅, false⟩ (Or.inr ⟨" ", rfl, Or.inl (by decide)⟩)
  exact ⟨h.2.1, h.2.2⟩

/-- Claim C7: when the guard admits the payload and the parse fails, the
tree is forced empty and the error field is set to the string
`"Invalid JSON: "` followed by the parser diagnostic (the failure is
caught, `processPayload` is a total function); and on arrival of record
data whose payload parses successfully the previously set error is
cleared (the `wiredRecord` data branch resets it and the successful parse
path never rewrites it). -/
theorem processPayload_error_surface (parse : String → Except String JsonValue)
    (p q msg : String) (v : JsonValue) (st1 st2 : CState)
    (hg : ¬(jsTrim p = "" ∨ p = "\x7b\x7d")) (he : parse p = .error msg)
    (hq : parse q = .ok v) :
    (processPayload parse (some p) st1).jsonTree = [] ∧
    (processPayload parse (some p) st1).error = some ("Invalid JSON: " ++ msg) ∧
    (receiveRecordData parse (some q) st2).error = none := by
  refine ⟨?_, ?_, ?_⟩
  · simp [processPayload, if_neg hg, he]
  · simp [processPayload, if_neg hg, he]
  · simp only [receiveRecordData, processCurrentSelection, processPayload]
    split
    · rfl
    · rw [hq]

/-- Claim C7, witness: the unparseable payload `"{invalid"` and the
parseable payload `"1"`. -/
theorem processPayload_error_surface_witness :
    (processPayload (fun s => if s = "\x7binvalid" then .error "bad token" else .ok .null)
        (some "\x7binvalid") ⟨none, [], none, ∅, false⟩).error =
      some ("Invalid JSON: " ++ "bad token") ∧
    (receiveRecordData (fun s => if s = "\x7binvalid" then .error "bad token" else .ok .null)
        (some "1") ⟨none, [], some "old", ∅, false⟩).error = none := by
  have h := processPayload_error_surface
    (fun s => if s = "\x7binvalid" then .error "bad token" else .ok .null)
    "\x7binvalid" "1" "bad token" .null ⟨none, [], none, ∅, false⟩
    ⟨none, [], some "old", ∅, false⟩ (by decide) (by rfl) (by rfl)
  exact ⟨h.2.1, h.2.2⟩

/-! ### Claim C4: laziness of materialization -/

/-- The per-row laziness contract: `children` is non-empty exactly when
the row is both expandable (`hasChildren`) and expanded. -/
def lazyRowOk (n : DisplayNode) : Bool :=
  n.children.isEmpty == !(n.hasChildren && n.isExpanded)

theorem isEmpty_false_of_ne_nil {α : Type} {l : List α} (h : l ≠ []) : l.isEmpty = false := by
  cases l with
  | nil => exact absurd rfl h
  | cons a t => rfl

theorem buildJsonTree_ne_nil (exp : Finset String) (v : JsonValue) (pk : String) (l : Nat)
    (h : hasChildrenB v = true) : buildJsonTree exp v pk l ≠ [] := by
  cases v with
  | null => simp [hasChildrenB] at h
  | bool b => simp [hasChildrenB] at h
  | num n => simp [hasChildrenB] at h
  | str s => simp [hasChildrenB] at h
  | arr items =>
    cases items with
    | nil => simp [hasChildrenB] at h
    | cons a rest => simp [buildJsonTree, buildArrEntries]
  | obj fields =>
    cases fields with
    | nil => simp [hasChildrenB] at h
    | cons e rest =>
      obtain ⟨k, w⟩ := e
      simp [buildJsonTree, buildObjEntries]

mutual

theorem lazy_tree (exp : Finset String) (v : JsonValue) (pk : String) (l : Nat) :
    allNodesList lazyRowOk (buildJsonTree exp v pk l) = true := by
  cases v with
  | null => simp [buildJsonTree, allNodesList, lazyRowOk]
  | bool b => simp [buildJsonTree, allNodesList, lazyRowOk]
  | num n => simp [buildJsonTree, allNodesList, lazyRowOk]
  | str s => simp [buildJsonTree, allNodesList, lazyRowOk]
  | arr items =>
    rw [show buildJsonTree exp (.arr items) pk l =
        buildArrEntries exp items.length items 0 pk l from by simp [buildJsonTree]]
    exact lazy_arr exp items.length items 0 pk l
  | obj fields =>
    rw [show buildJsonTree exp (.obj fields) pk l =
        buildObjEntries exp fields pk l from by simp [buildJsonTree]]
    exact lazy_obj exp fields pk l
termination_by (sizeOf v, 0)

theorem lazy_arr (exp : Finset String) (plen : Nat) (items : List JsonValue) (i : Nat)
    (pk : String) (l : Nat) :
    allNodesList lazyRowOk (buildArrEntries exp plen items i pk l) = true := by
  cases items with
  | nil => simp [buildArrEntries, allNodesList]
  | cons v rest =>
    have h1 := lazy_entry exp true plen (natStr i) v pk l
    have h2 := lazy_arr exp plen rest (i + 1) pk l
    simp only [buildArrEntries, allNodesList, Bool.and_eq_true] at h1 ⊢
    exact ⟨h1.1, h2⟩
termination_by (sizeOf items, 1)

theorem lazy_obj (exp : Finset String) (fields : List (String × JsonValue))
    (pk : String) (l : Nat) :
    allNodesList lazyRowOk (buildObjEntries exp fields pk l) = true := by
  cases fields with
  | nil => simp [buildObjEntries, allNodesList]
  | cons e rest =>
    obtain ⟨k, v⟩ := e
    have h1 := lazy_entry exp false 0 k v pk l
    have h2 := lazy_obj exp rest pk l
    simp only [buildObjEntries, allNodesList, Bool.and_eq_true] at h1 ⊢
    exact ⟨h1.1, h2⟩
termination_by (sizeOf fields, 1)

theorem lazy_entry (exp : Finset String) (pia : Bool) (plen : Nat) (k : String)
    (v : JsonValue) (pk : String) (l : Nat) :
    allNodesList lazyRowOk [entryNode exp pia plen k v pk l] = true := by
  by_cases hch : hasChildrenB v = true
  · by_cases hie : generateKey (pathAppend pk k) l ∈ exp
    · have hne := buildJsonTree_ne_nil exp v (pathAppend pk k) (l + 1) hch
      have hrec := lazy_tree exp v (pathAppend pk k) (l + 1)
      simp [allNodesList, entryNode, lazyRowOk, hch, hie, isEmpty_false_of_ne_nil hne, hrec]
    · simp [allNodesList, entryNode, lazyRowOk, hch, hie]
  · simp [allNodesList, entryNode, lazyRowOk, hch]
termination_by (sizeOf v, 2)

end

theorem allNodesList_imp (p q : DisplayNode → Bool) (hpq : ∀ n, p n = true → q n = true) :
    ∀ ns : List DisplayNode, allNodesList p ns = true → allNodesList q ns = true
  | [] => by simp [allNodesList]
  | n :: rest => by
    intro h
    simp only [allNodesList, Bool.and_eq_true] at h ⊢
    exact ⟨⟨hpq n h.1.1, allNodesList_imp p q hpq n.children h.1.2⟩,
      allNodesList_imp p q hpq rest h.2⟩
termination_by ns => sizeOf ns
decreasing_by
  all_goals cases n
  all_goals simp_all
  all_goals omega

/-- Claim C4: materialization is lazy.  Every row in the forest produced
by `buildJsonTree` — at any depth, for any value and any expansion set —
has non-empty `children` exactly when it is expandable and expanded
(`lazyRowOk`), and in particular a row with `isExpanded = false` has
`children = []` even when the underlying value has nested content. -/
theorem buildJsonTree_laziness (exp : Finset String) (v : JsonValue) (pk : String) (l : Nat) :
    allNodesList lazyRowOk (buildJsonTree exp v pk l) = true ∧
    allNodesList (fun n => n.isExpanded || n.children.isEmpty)
      (buildJsonTree exp v pk l) = true := by
  have h := lazy_tree exp v pk l
  refine ⟨h, allNodesList_imp lazyRowOk _ ?_ _ h⟩
  intro n hn
  simp only [lazyRowOk] at hn
  cases hie : n.isExpanded <;> cases hch : n.hasChildren <;> simp_all

/-! ### Claim C6: determinism and order preservation -/

theorem buildObjEntries_displayKeys (exp : Finset String) (fields : List (String × JsonValue))
    (pk : String) (l : Nat) :
    (buildObjEntries exp fields pk l).map (fun n => n.displayKey) = fields.map Prod.fst := by
  induction fields with
  | nil => simp [buildObjEntries]
  | cons e rest ih =>
    obtain ⟨k, v⟩ := e
    simp [buildObjEntries, entryNode, ih]

theorem buildArrEntries_displayKeys (exp : Finset String) (plen : Nat)
    (items : List JsonValue) :
    ∀ (i : Nat) (pk : String) (l : Nat),
      (buildArrEntries exp plen items i pk l).map (fun n => n.displayKey) =
        (List.range items.length).map (fun j => natStr (i + j)) := by
  induction items with
  | nil => intro i pk l; simp [buildArrEntries]
  | cons v rest ih =>
    intro i pk l
    have hlen : (v :: rest).length = rest.length + 1 := rfl
    rw [hlen, List.range_succ_eq_map]
    have harith : ∀ j : Nat, natStr (i + 1 + j) = natStr (i + (j + 1)) := fun j => by
      congr 1
      omega
    simp [buildArrEntries, entryNode, ih (i + 1) pk l, List.map_map, Function.comp, harith]

/-- Claim C6: materialization is deterministic — its output is a function
of the value and the expansion set alone — and enumeration order
preserves document order: object rows appear in field insertion order and
array rows in ascending index order (decimal index as the display key). -/
theorem materialization_deterministic_and_ordered (exp1 exp2 : Finset String)
    (v1 v2 : JsonValue) (pk : String) (l : Nat) (hv : v1 = v2) (he : exp1 = exp2) :
    buildJsonTree exp1 v1 pk l = buildJsonTree exp2 v2 pk l ∧
    (∀ fields, v1 = .obj fields →
      (buildJsonTree exp1 v1 pk l).map (fun n => n.displayKey) = fields.map Prod.fst) ∧
    (∀ items, v1 = .arr items →
      (buildJsonTree exp1 v1 pk l).map (fun n => n.displayKey) =
        (List.range items.length).map natStr) := by
  subst hv
  subst he
  refine ⟨rfl, ?_, ?_⟩
  · rintro fields rfl
    rw [show buildJsonTree exp1 (.obj fields) pk l = buildObjEntries exp1 fields pk l from by
      simp [buildJsonTree]]
    exact buildObjEntries_displayKeys exp1 fields pk l
  · rintro items rfl
    rw [show buildJsonTree exp1 (.arr items) pk l =
        buildArrEntries exp1 items.length items 0 pk l from by simp [buildJsonTree]]
    rw [buildArrEntries_displayKeys exp1 items.length items 0 pk l]
    simp

/-- Claim C6, witness at a concrete two-field object. -/
theorem materialization_ordered_witness :
    (buildJsonTree ∅ (.obj [("a", .num 1), ("b", .num 2)]) "" 0).map
      (fun n => n.displayKey) = ["a", "b"] := by
  have h := materialization_deterministic_and_ordered ∅ ∅
    (.obj [("a", .num 1), ("b", .num 2)]) (.obj [("a", .num 1), ("b", .num 2)]) "" 0 rfl rfl
  exact (h.2.1 [("a", .num 1), ("b", .num 2)] rfl).trans (by decide)

/-! ### Claim C5: expandAll totality -/

mutual

theorem addAll_superset (v : JsonValue) (pk : String) (l : Nat) (s : Finset String) :
    s ⊆ addAllNodesToExpanded v pk l s := by
  cases v with
  | arr items =>
    rw [show addAllNodesToExpanded (.arr items) pk l s = addAllArr items 0 pk l s from by
      simp [addAllNodesToExpanded]]
    exact addAllArr_superset items 0 pk l s
  | obj fields =>
    rw [show addAllNodesToExpanded (.obj fields) pk l s = addAllObj fields pk l s from by
      simp [addAllNodesToExpanded]]
    exact addAllObj_superset fields pk l s
  | null => simp [addAllNodesToExpanded]
  | bool b => simp [addAllNodesToExpanded]
  | num n => simp [addAllNodesToExpanded]
  | str t => simp [addAllNodesToExpanded]
termination_by (sizeOf v, 1)

theorem addAllArr_superset (items : List JsonValue) (i : Nat) (pk : String) (l : Nat)
    (s : Finset String) : s ⊆ addAllArr items i pk l s := by
  cases items with
  | nil => simp [addAllArr]
  | cons v rest =>
    simp only [addAllArr]
    refine Finset.Subset.trans ?_ (addAllArr_superset rest (i + 1) pk l _)
    by_cases hch : hasChildrenB v = true
    · simp only [if_pos hch]
      exact Finset.Subset.trans (Finset.subset_insert _ s)
        (addAll_superset v (pathAppend pk (natStr i)) (l + 1) _)
    · simp only [if_neg hch]
      exact Finset.Subset.refl s
termination_by (sizeOf items, 0)

theorem addAllObj_superset (fields : List (String × JsonValue)) (pk : String) (l : Nat)
    (s : Finset String) : s ⊆ addAllObj fields pk l s := by
  cases fields with
  | nil => simp [addAllObj]
  | cons e rest =>
    obtain ⟨k, v⟩ := e
    simp only [addAllObj]
    refine Finset.Subset.trans ?_ (addAllObj_superset rest pk l _)
    by_cases hch : hasChildrenB v = true
    · simp only [if_pos hch]
      exact Finset.Subset.trans (Finset.subset_insert _ s)
        (addAll_superset v (pathAppend pk k) (l + 1) _)
    · simp only [if_neg hch]
      exact Finset.Subset.refl s
termination_by (sizeOf fields, 0)

end

mutual

/-- `coversTree T v pk l`: the set `T` contains the NodeId of every
expandable entry reachable inside `v` when enumerated from path `pk` at
level `l` — exactly the ids `addAllNodesToExpanded` inserts. -/
def coversTree (T : Finset String) (v : JsonValue) (pk : String) (l : Nat) : Prop :=
  match v with
  | .arr items => coversArr T items 0 pk l
  | .obj fields => coversObj T fields pk l
  | _ => True
termination_by (sizeOf v, 1)

/-- `coversTree` restricted to the tail of an array enumeration. -/
def coversArr (T : Finset String) (items : List JsonValue) (i : Nat) (pk : String)
    (l : Nat) : Prop :=
  match items with
  | [] => True
  | v :: rest =>
    (hasChildrenB v = true →
      generateKey (pathAppend pk (natStr i)) l ∈ T ∧
        coversTree T v (pathAppend pk (natStr i)) (l + 1)) ∧
    coversArr T rest (i + 1) pk l
termination_by (sizeOf items, 0)

/-- `coversTree` restricted to the tail of an object enumeration. -/
def coversObj (T : Finset String) (fields : List (String × JsonValue)) (pk : String)
    (l : Nat) : Prop :=
  match fields with
  | [] => True
  | (k, v) :: rest =>
    (hasChildrenB v = true →
      generateKey (pathAppend pk k) l ∈ T ∧ coversTree T v (pathAppend pk k) (l + 1)) ∧
    coversObj T rest pk l
termination_by (sizeOf fields, 0)

end

mutual

theorem coversTree_mono (T T' : Finset String) :
    ∀ (v : JsonValue) (pk : String) (l : Nat), T ⊆ T' →
      coversTree T v pk l → coversTree T' v pk l
  | .arr items, pk, l, hT, h => by
    rw [show coversTree T' (.arr items) pk l = coversArr T' items 0 pk l from by
      simp [coversTree]]
    rw [show coversTree T (.arr items) pk l = coversArr T items 0 pk l from by
      simp [coversTree]] at h
    exact coversArr_mono T T' items 0 pk l hT h
  | .obj fields, pk, l, hT, h => by
    rw [show coversTree T' (.obj fields) pk l = coversObj T' fields pk l from by
      simp [coversTree]]
    rw [show coversTree T (.obj fields) pk l = coversObj T fields pk l from by
      simp [coversTree]] at h
    exact coversObj_mono T T' fields pk l hT h
  | .null, pk, l, _, _ => by simp [coversTree]
  | .bool b, pk, l, _, _ => by simp [coversTree]
  | .num n, pk, l, _, _ => by simp [coversTree]
  | .str t, pk, l, _, _ => by simp [coversTree]
termination_by v _ _ _ _ => (sizeOf v, 1)

theorem coversArr_mono (T T' : Finset String) :
    ∀ (items : List JsonValue) (i : Nat) (pk : String) (l : Nat), T ⊆ T' →
      coversArr T items i pk l → coversArr T' items i pk l
  | [], _, _, _, _, _ => by simp [coversArr]
  | v :: rest, i, pk, l, hT, h => by
    simp only [coversArr] at h ⊢
    refine ⟨fun hch => ?_, coversArr_mono T T' rest (i + 1) pk l hT h.2⟩
    obtain ⟨hmem, hcov⟩ := h.1 hch
    exact ⟨hT hmem, coversTree_mono T T' v (pathAppend pk (natStr i)) (l + 1) hT hcov⟩
termination_by items _ _ _ _ _ => (sizeOf items, 0)

theorem coversObj_mono (T T' : Finset String) :
    ∀ (fields : List (String × JsonValue)) (pk : String) (l : Nat), T ⊆ T' →
      coversObj T fields pk l → coversObj T' fields pk l
  | [], _, _, _, _ => by simp [coversObj]
  | (k, v) :: rest, pk, l, hT, h => by
    simp only [coversObj] at h ⊢
    refine ⟨fun hch => ?_, coversObj_mono T T' rest pk l hT h.2⟩
    obtain ⟨hmem, hcov⟩ := h.1 hch
    exact ⟨hT hmem, coversTree_mono T T' v (pathAppend pk k) (l + 1) hT hcov⟩
termination_by fields _ _ _ _ => (sizeOf fields, 0)

end

mutual

theorem addAll_covers (v : JsonValue) (pk : String) (l : Nat) (s : Finset String) :
    coversTree (addAllNodesToExpanded v pk l s) v pk l := by
  cases v with
  | arr items =>
    rw [show addAllNodesToExpanded (.arr items) pk l s = addAllArr items 0 pk l s from by
      simp [addAllNodesToExpanded]]
    rw [show coversTree (addAllArr items 0 pk l s) (.arr items) pk l =
        coversArr (addAllArr items 0 pk l s) items 0 pk l from by simp [coversTree]]
    exact addAllArr_covers items 0 pk l s
  | obj fields =>
    rw [show addAllNodesToExpanded (.obj fields) pk l s = addAllObj fields pk l s from by
      simp [addAllNodesToExpanded]]
    rw [show coversTree (addAllObj fields pk l s) (.obj fields) pk l =
        coversObj (addAllObj fields pk l s) fields pk l from by simp [coversTree]]
    exact addAllObj_covers fields pk l s
  | null => simp [coversTree]
  | bool b => simp [coversTree]
  | num n => simp [coversTree]
  | str t => simp [coversTree]
termination_by (sizeOf v, 1)

theorem addAllArr_covers (items : List JsonValue) (i : Nat) (pk : String) (l : Nat)
    (s : Finset String) : coversArr (addAllArr items i pk l s) items i pk l := by
  cases items with
  | nil => simp [coversArr]
  | cons v rest =>
    rw [show addAllArr (v :: rest) i pk l s = addAllArr rest (i + 1) pk l
        (if hasChildrenB v then
          addAllNodesToExpanded v (pathAppend pk (natStr i)) (l + 1)
            (insert (generateKey (pathAppend pk (natStr i)) l) s)
         else s) from by simp [addAllArr]]
    simp only [coversArr]
    refine ⟨fun hch => ?_, addAllArr_covers rest (i + 1) pk l _⟩
    rw [if_pos hch]
    have hsub : addAllNodesToExpanded v (pathAppend pk (natStr i)) (l + 1)
        (insert (generateKey (pathAppend pk (natStr i)) l) s) ⊆
        addAllArr rest (i + 1) pk l
          (addAllNodesToExpanded v (pathAppend pk (natStr i)) (l + 1)
            (insert (generateKey (pathAppend pk (natStr i)) l) s)) :=
      addAllArr_superset rest (i + 1) pk l _
    constructor
    · exact hsub (addAll_superset v (pathAppend pk (natStr i)) (l + 1) _
        (Finset.mem_insert_self _ s))
    · exact coversTree_mono _ _ v (pathAppend pk (natStr i)) (l + 1) hsub
        (addAll_covers v (pathAppend pk (natStr i)) (l + 1) _)
termination_by (sizeOf items, 0)

theorem addAllObj_covers (fields : List (String × JsonValue)) (pk : String) (l : Nat)
    (s : Finset String) : coversObj (addAllObj fields pk l s) fields pk l := by
  cases fields with
  | nil => simp [coversObj]
  | cons e rest =>
    obtain ⟨k, v⟩ := e
    rw [show addAllObj ((k, v) :: rest) pk l s = addAllObj rest pk l
        (if hasChildrenB v then
          addAllNodesToExpanded v (pathAppend pk k) (l + 1)
            (insert (generateKey (pathAppend pk k) l) s)
         else s) from by simp [addAllObj]]
    simp only [coversObj]
    refine ⟨fun hch => ?_, addAllObj_covers rest pk l _⟩
    rw [if_pos hch]
    have hsub : addAllNodesToExpanded v (pathAppend pk k) (l + 1)
        (insert (generateKey (pathAppend pk k) l) s) ⊆
        addAllObj rest pk l
          (addAllNodesToExpanded v (pathAppend pk k) (l + 1)
            (insert (generateKey (pathAppend pk k) l) s)) :=
      addAllObj_superset rest pk l _
    constructor
    · exact hsub (addAll_superset v (pathAppend pk k) (l + 1) _ (Finset.mem_insert_self _ s))
    · exact coversTree_mono _ _ v (pathAppend pk k) (l + 1) hsub
        (addAll_covers v (pathAppend pk k) (l + 1) _)
termination_by (sizeOf fields, 0)

end

/-- The per-row totality contract after expand-all: every expandable row
is expanded. -/
def expandedRowOk (n : DisplayNode) : Bool :=
  !n.hasChildren || n.isExpanded

mutual

theorem covers_expanded_tree (T : Finset String) (v : JsonValue) (pk : String) (l : Nat)
    (h : coversTree T v pk l) :
    allNodesList expandedRowOk (buildJsonTree T v pk l) = true := by
  cases v with
  | null => simp [buildJsonTree, allNodesList, expandedRowOk]
  | bool b => simp [buildJsonTree, allNodesList, expandedRowOk]
  | num n => simp [buildJsonTree, allNodesList, expandedRowOk]
  | str t => simp [buildJsonTree, allNodesList, expandedRowOk]
  | arr items =>
    rw [show buildJsonTree T (.arr items) pk l =
        buildArrEntries T items.length items 0 pk l from by simp [buildJsonTree]]
    rw [show coversTree T (.arr items) pk l = coversArr T items 0 pk l from by
      simp [coversTree]] at h
    exact covers_expanded_arr T items.length items 0 pk l h
  | obj fields =>
    rw [show buildJsonTree T (.obj fields) pk l = buildObjEntries T fields pk l from by
      simp [buildJsonTree]]
    rw [show coversTree T (.obj fields) pk l = coversObj T fields pk l from by
      simp [coversTree]] at h
    exact covers_expanded_obj T fields pk l h
termination_by (sizeOf v, 0)

theorem covers_expanded_arr (T : Finset String) (plen : Nat) (items : List JsonValue)
    (i : Nat) (pk : String) (l : Nat) (h : coversArr T items i pk l) :
    allNodesList expandedRowOk (buildArrEntries T plen items i pk l) = true := by
  cases items with
  | nil => simp [buildArrEntries, allNodesList]
  | cons v rest =>
    simp only [coversArr] at h
    have h1 := covers_expanded_entry T true plen (natStr i) v pk l h.1
    have h2 := covers_expanded_arr T plen rest (i + 1) pk l h.2
    simp only [buildArrEntries, allNodesList, Bool.and_eq_true] at h1 ⊢
    exact ⟨h1.1, h2⟩
termination_by (sizeOf items, 1)

theorem covers_expanded_obj (T : Finset String) (fields : List (String × JsonValue))
    (pk : String) (l : Nat) (h : coversObj T fields pk l) :
    allNodesList expandedRowOk (buildObjEntries T fields pk l) = true := by
  match fields with
  | [] => simp [buildObjEntries, allNodesList]
  | (k, v) :: rest =>
    simp only [coversObj] at h
    have h1 := covers_expanded_entry T false 0 k v pk l h.1
    have h2 := covers_expanded_obj T rest pk l h.2
    simp only [buildObjEntries, allNodesList, Bool.and_eq_true] at h1 ⊢
    exact ⟨h1.1, h2⟩
termination_by (sizeOf fields, 1)

theorem covers_expanded_entry (T : Finset String) (pia : Bool) (plen : Nat) (k : String)
    (v : JsonValue) (pk : String) (l : Nat)
    (hk : hasChildrenB v = true →
      generateKey (pathAppend pk k) l ∈ T ∧ coversTree T v (pathAppend pk k) (l + 1)) :
    allNodesList expandedRowOk [entryNode T pia plen k v pk l] = true := by
  by_cases hch : hasChildrenB v = true
  · obtain ⟨hmem, hcov⟩ := hk hch
    have hrec := covers_expanded_tree T v (pathAppend pk k) (l + 1) hcov
    simp [allNodesList, entryNode, expandedRowOk, hch, hmem, hrec]
  · simp [allNodesList, entryNode, expandedRowOk, hch]
termination_by (sizeOf v, 2)

end

theorem valueAt_cons_hasChildren (k : String) (rest : List String) (v w : JsonValue)
    (h : valueAt (k :: rest) v = some w) : hasChildrenB v = true := by
  cases v with
  | null => simp [valueAt, entriesOf] at h
  | bool b => simp [valueAt, entriesOf] at h
  | num n => simp [valueAt, entriesOf] at h
  | str t => simp [valueAt, entriesOf] at h
  | arr items =>
    cases items with
    | nil => simp [valueAt, entriesOf, arrEntries] at h
    | cons a t => simp [hasChildrenB]
  | obj fields =>
    cases fields with
    | nil => simp [valueAt, entriesOf] at h
    | cons e t => simp [hasChildrenB]

mutual

theorem posMem_tree (v : JsonValue) (pk : String) (l : Nat) (s : Finset String) :
    ∀ (pos : List String) (w : JsonValue), pos ≠ [] → valueAt pos v = some w →
      hasChildrenB w = true →
      generateKey (pos.foldl pathAppend pk) (l + pos.length - 1) ∈
        addAllNodesToExpanded v pk l s := by
  intro pos w hne hval hch
  cases pos with
  | nil => exact absurd rfl hne
  | cons k rest =>
    cases v with
    | null => simp [valueAt, entriesOf] at hval
    | bool b => simp [valueAt, entriesOf] at hval
    | num n => simp [valueAt, entriesOf] at hval
    | str t => simp [valueAt, entriesOf] at hval
    | arr items =>
      rw [show addAllNodesToExpanded (.arr items) pk l s = addAllArr items 0 pk l s from by
        simp [addAllNodesToExpanded]]
      simp only [valueAt, entriesOf] at hval
      rcases hfind : (arrEntries 0 items).find? (fun x => x.1 == k) with _ | e
      · rw [hfind] at hval
        simp at hval
      · rw [hfind] at hval
        simp only at hval
        exact posMem_arr items 0 pk l s k rest e w hfind hval hch
    | obj fields =>
      rw [show addAllNodesToExpanded (.obj fields) pk l s = addAllObj fields pk l s from by
        simp [addAllNodesToExpanded]]
      simp only [valueAt, entriesOf] at hval
      rcases hfind : fields.find? (fun x => x.1 == k) with _ | e
      · rw [hfind] at hval
        simp at hval
      · rw [hfind] at hval
        simp only at hval
        exact posMem_obj fields pk l s k rest e w hfind hval hch
termination_by (sizeOf v, 1)

theorem posMem_arr (items : List JsonValue) (i : Nat) (pk : String) (l : Nat)
    (s : Finset String) :
    ∀ (k : String) (rest : List String) (e : String × JsonValue) (w : JsonValue),
      (arrEntries i items).find? (fun x => x.1 == k) = some e →
      valueAt rest e.2 = some w → hasChildrenB w = true →
      generateKey ((k :: rest).foldl pathAppend pk) (l + (k :: rest).length - 1) ∈
        addAllArr items i pk l s := by
  intro k rest e w hfind hval hch
  match items with
  | [] => simp [arrEntries] at hfind
  | v :: restItems =>
    rw [show addAllArr (v :: restItems) i pk l s = addAllArr restItems (i + 1) pk l
        (if hasChildrenB v then
          addAllNodesToExpanded v (pathAppend pk (natStr i)) (l + 1)
            (insert (generateKey (pathAppend pk (natStr i)) l) s)
         else s) from by simp [addAllArr]]
    rw [show arrEntries i (v :: restItems) = (natStr i, v) :: arrEntries (i + 1) restItems
      from by simp [arrEntries]] at hfind
    cases hk : ((natStr i, v).1 == k) with
    | true =>
      simp only [List.find?, hk] at hfind
      obtain rfl : (natStr i, v) = e := Option.some_inj.mp hfind
      have hkey : natStr i = k := eq_of_beq hk
      subst hkey
      simp only at hval
      cases rest with
      | nil =>
        have hw : v = w := by simpa [valueAt] using hval
        subst hw
        rw [if_pos hch]
        simp only [List.foldl_cons, List.foldl_nil, List.length_cons, List.length_nil]
        have harith : l + (0 + 1) - 1 = l := by omega
        rw [harith]
        exact addAllArr_superset restItems (i + 1) pk l _
          (addAll_superset v (pathAppend pk (natStr i)) (l + 1) _
            (Finset.mem_insert_self _ s))
      | cons r rrest =>
        have hchv : hasChildrenB v = true := valueAt_cons_hasChildren r rrest v w hval
        rw [if_pos hchv]
        have hmem := posMem_tree v (pathAppend pk (natStr i)) (l + 1)
          (insert (generateKey (pathAppend pk (natStr i)) l) s) (r :: rrest) w
          (by simp) hval hch
        have hfold : (natStr i :: r :: rrest).foldl pathAppend pk =
            (r :: rrest).foldl pathAppend (pathAppend pk (natStr i)) := rfl
        have harith : l + (natStr i :: r :: rrest).length - 1 =
            (l + 1) + (r :: rrest).length - 1 := by
          simp only [List.length_cons]
          omega
        rw [hfold, harith]
        exact addAllArr_superset restItems (i + 1) pk l _ hmem
    | false =>
      simp only [List.find?, hk] at hfind
      exact posMem_arr restItems (i + 1) pk l _ k rest e w hfind hval hch
termination_by (sizeOf items, 0)

theorem posMem_obj (fields : List (String × JsonValue)) (pk : String) (l : Nat)
    (s : Finset String) :
    ∀ (k : String) (rest : List String) (e : String × JsonValue) (w : JsonValue),
      fields.find? (fun x => x.1 == k) = some e →
      valueAt rest e.2 = some w → hasChildrenB w = true →
      generateKey ((k :: rest).foldl pathAppend pk) (l + (k :: rest).length - 1) ∈
        addAllObj fields pk l s := by
  intro k rest e w hfind hval hch
  match fields with
  | [] => simp at hfind
  | (k0, v) :: restF =>
    rw [show addAllObj ((k0, v) :: restF) pk l s = addAllObj restF pk l
        (if hasChildrenB v then
          addAllNodesToExpanded v (pathAppend pk k0) (l + 1)
            (insert (generateKey (pathAppend pk k0) l) s)
         else s) from by simp [addAllObj]]
    cases hk : ((k0, v).1 == k) with
    | true =>
      simp only [List.find?, hk] at hfind
      obtain rfl : (k0, v) = e := Option.some_inj.mp hfind
      have hkey : k0 = k := eq_of_beq hk
      subst hkey
      simp only at hval
      cases rest with
      | nil =>
        have hw : v = w := by simpa [valueAt] using hval
        subst hw
        rw [if_pos hch]
        simp only [List.foldl_cons, List.foldl_nil, List.length_cons, List.length_nil]
        have harith : l + (0 + 1) - 1 = l := by omega
        rw [harith]
        exact addAllObj_superset restF pk l _
          (addAll_superset v (pathAppend pk k0) (l + 1) _ (Finset.mem_insert_self _ s))
      | cons r rrest =>
        have hchv : hasChildrenB v = true := valueAt_cons_hasChildren r rrest v w hval
        rw [if_pos hchv]
        have hmem := posMem_tree v (pathAppend pk k0) (l + 1)
          (insert (generateKey (pathAppend pk k0) l) s) (r :: rrest) w
          (by simp) hval hch
        have hfold : (k0 :: r :: rrest).foldl pathAppend pk =
            (r :: rrest).foldl pathAppend (pathAppend pk k0) := rfl
        have harith : l + (k0 :: r :: rrest).length - 1 =
            (l + 1) + (r :: rrest).length - 1 := by
          simp only [List.length_cons]
          omega
        rw [hfold, harith]
        exact addAllObj_superset restF pk l _ hmem
    | false =>
      simp only [List.find?, hk] at hfind
      exact posMem_obj restF pk l _ k rest e w hfind hval hch
termination_by (sizeOf fields, 0)

end

/-- Claim C5: expandAll totality.  After `addAllNodesToExpanded(v, '', 0)`
runs on top of any prior expansion set `s`, (1) the resulting set
contains the NodeId of every position of `v` whose value is a container
with at least one entry, at every depth, irrespective of ancestors; and
(2) materializing `v` with that set yields `isExpanded = true` on every
row with `hasChildren = true`, at every depth of the resulting forest. -/
theorem expandAll_totality (v : JsonValue) (s : Finset String) :
    (∀ (pos : List String) (w : JsonValue), pos ≠ [] → valueAt pos v = some w →
      hasChildrenB w = true → posNodeId pos ∈ addAllNodesToExpanded v "" 0 s) ∧
    allNodesList expandedRowOk
      (buildJsonTree (addAllNodesToExpanded v "" 0 s) v "" 0) = true := by
  constructor
  · intro pos w hne hval hch
    have h := posMem_tree v "" 0 s pos w hne hval hch
    simpa [posNodeId, fullPathOfPos] using h
  · exact covers_expanded_tree _ v "" 0 (addAll_covers v "" 0 s)

/-- Claim C5, witness: in `{"a": {"b": [1]}}` the nested container
position `["a", "b"]` is registered by expand-all starting from the empty
set. -/
theorem expandAll_totality_witness :
    posNodeId ["a", "b"] ∈
      addAllNodesToExpanded (.obj [("a", .obj [("b", .arr [.num 1])])]) "" 0 ∅ :=
  (expandAll_totality (.obj [("a", .obj [("b", .arr [.num 1])])]) ∅).1 ["a", "b"]
    (.arr [.num 1]) (by decide) (by rfl) (by rfl)
